import Mathlib

/-!
Verification of the translation-compile core (`packages/core/src/compile.ts`)
of the vocab library: placeholder type inference over ICU message ASTs,
markup detection, literal encoding, runtime-module serialisation, the
write-if-changed discipline and the watch-session handlers.

JavaScript objects are modelled as insertion-ordered association lists with
last-writer-wins assignment (`objSet`), `Set` as an insertion-ordered list
with membership-guarded append (`setAdd`), and object spread
`{ ...a, ...b }` as `objMerge`.
-/

set_option maxHeartbeats 1000000

namespace Vocab

/-- ICU message-format AST, mirroring the element kinds of
`@formatjs/icu-messageformat-parser` consumed by `compile.ts`
(literal, argument, number, date, time, plural, select, tag).
`plural` and `select` carry their options as an association list from
branch label to child AST, in source order; `tag` carries its children. -/
inductive MFE where
  | literal (value : String)
  | argument (value : String)
  | number (value : String)
  | date (value : String)
  | time (value : String)
  | plural (value : String) (options : List (String × List MFE))
  | select (value : String) (options : List (String × List MFE))
  | tag (value : String) (children : List MFE)

/-- `type ICUParams = { [key: string]: string }` — a JavaScript object from
placeholder name to type expression, modelled as an insertion-ordered
association list. -/
abbrev ICUParams := List (String × String)

/-- JavaScript property assignment `m[k] = v`: if the key is present its
value is updated in place (position preserved), otherwise the pair is
appended. -/
def objSet : ICUParams → String → String → ICUParams
  | [], k, v => [(k, v)]
  | (k0, v0) :: rest, k, v =>
      if k0 = k then (k0, v) :: rest else (k0, v0) :: objSet rest k v

/-- Property lookup on the association-list model of a JavaScript object. -/
def lookupParam : ICUParams → String → Option String
  | [], _ => none
  | (k0, v0) :: rest, k => if k0 = k then some v0 else lookupParam rest k

/-- Object spread `{ ...a, ...b }`: every property of `b` is assigned into
`a` in order, so shared keys keep `a`'s position but take `b`'s value. -/
def objMerge : ICUParams → ICUParams → ICUParams
  | a, [] => a
  | a, (k, v) :: rest => objMerge (objSet a k v) rest

/-- JavaScript `Set.add` on the insertion-ordered list model: append the
element only when it is not already present. -/
def setAdd (s : List String) (x : String) : List String :=
  if x ∈ s then s else s ++ [x]

/-- `new Set([...a, ...b])`: add every element of `b` to `a` in order. -/
def setUnion : List String → List String → List String
  | a, [] => a
  | a, x :: rest => setUnion (setAdd a x) rest

/-- The single-quote character. -/
def qm : Char := Char.ofNat 39

/-- The backslash character. -/
def bs : Char := Char.ofNat 92

/-- Character-level form of `v.replace(/'/g, "\\'")`: every single quote is
replaced by backslash + single quote; nothing else — in particular no
backslash — is escaped. -/
def encodeQuotesList : List Char → List Char
  | [] => []
  | c :: rest =>
      if c = qm then bs :: qm :: encodeQuotesList rest
      else c :: encodeQuotesList rest

/-- `encodeWithinSingleQuotes` from compile.ts. -/
def encodeWithinSingleQuotes (v : String) : String :=
  String.mk (encodeQuotesList v.data)

/-- Character-level form of `v.replace(/\\/g, '\\\\')`: every backslash is
doubled. -/
def encodeBackslashList : List Char → List Char
  | [] => []
  | c :: rest =>
      if c = bs then bs :: bs :: encodeBackslashList rest
      else c :: encodeBackslashList rest

/-- `encodeBackslash` from compile.ts. -/
def encodeBackslash (v : String) : String :=
  String.mk (encodeBackslashList v.data)

/-- The import line added whenever a tag placeholder is inferred. -/
def formatXMLElementFnImport : String := "import \x7b FormatXMLElementFn \x7d from '@vocab/types';"

/-- The union of single-quoted option labels of a select placeholder:
`Object.keys(element.options).map((o) => `'${o}'`).join(' | ')`. -/
def selectUnion (opts : List (String × List MFE)) : String :=
  String.intercalate " | " (opts.map (fun o => "'" ++ o.1 ++ "'"))

mutual

/-- The accumulator-threaded body of `extractParamTypes`: the `for` loop of
compile.ts lines 63–94 with its mutable `params` object and `imports` set
made explicit. Argument, number and plural placeholders assign a scalar
type; date/time assign `Date | number`; a tag placeholder assigns the
render-callback type, records its import, then recursively extracts its
children with fresh accumulators and spreads the result over the outer
state; a select placeholder assigns the label-literal union and then folds
over its option children the same way. Plural options are not visited. -/
def extractParamTypesFrom (params : ICUParams) (imports : List String) :
    List MFE → ICUParams × List String
  | [] => (params, imports)
  | MFE.literal _ :: rest => extractParamTypesFrom params imports rest
  | MFE.argument v :: rest =>
      extractParamTypesFrom (objSet params v "string") imports rest
  | MFE.number v :: rest =>
      extractParamTypesFrom (objSet params v "number") imports rest
  | MFE.plural v _ :: rest =>
      extractParamTypesFrom (objSet params v "number") imports rest
  | MFE.date v :: rest =>
      extractParamTypesFrom (objSet params v "Date | number") imports rest
  | MFE.time v :: rest =>
      extractParamTypesFrom (objSet params v "Date | number") imports rest
  | MFE.tag v children :: rest =>
      let sub := extractParamTypesFrom [] [] children
      extractParamTypesFrom
        (objMerge (objSet params v "FormatXMLElementFn<T>") sub.1)
        (setUnion (setAdd imports formatXMLElementFnImport) sub.2) rest
  | MFE.select v opts :: rest =>
      let r := extractSelectOptions (objSet params v (selectUnion opts)) imports opts
      extractParamTypesFrom r.1 r.2 rest

/-- The `for (const child of children)` loop of the select case: each option
child is extracted with fresh accumulators and spread over the running
state. -/
def extractSelectOptions (params : ICUParams) (imports : List String) :
    List (String × List MFE) → ICUParams × List String
  | [] => (params, imports)
  | (_, child) :: more =>
      let sub := extractParamTypesFrom [] [] child
      extractSelectOptions (objMerge params sub.1) (setUnion imports sub.2) more

end

/-- `extractParamTypes` from compile.ts: run the loop from empty
accumulators. -/
def extractParamTypes (ast : List MFE) : ICUParams × List String :=
  extractParamTypesFrom [] [] ast

mutual

/-- `extractHasTags` from compile.ts lines 47–55: `ast.some` of a predicate
that, on a select element, recurses into every option child, and otherwise
is simply "is a tag element". Plural options and tag children are not
visited. -/
def extractHasTags : List MFE → Bool
  | [] => false
  | MFE.select _ opts :: rest => anyOptionHasTags opts || extractHasTags rest
  | MFE.tag _ _ :: _ => true
  | MFE.literal _ :: rest => extractHasTags rest
  | MFE.argument _ :: rest => extractHasTags rest
  | MFE.number _ :: rest => extractHasTags rest
  | MFE.date _ :: rest => extractHasTags rest
  | MFE.time _ :: rest => extractHasTags rest
  | MFE.plural _ _ :: rest => extractHasTags rest

/-- `children.some((child) => extractHasTags(child))` over a select's
options. -/
def anyOptionHasTags : List (String × List MFE) → Bool
  | [] => false
  | (_, child) :: more => extractHasTags child || anyOptionHasTags more

end

/-- Keys of the association list, in insertion order. -/
def paramKeys (m : ICUParams) : List String := m.map (fun p => p.1)

/-- A well-formed JavaScript-object model has no duplicate keys. -/
def keysNodup (m : ICUParams) : Prop := (paramKeys m).Nodup

theorem lookupParam_objSet_self (m : ICUParams) (k v : String) :
    lookupParam (objSet m k v) k = some v := by
  induction m with
  | nil => simp [objSet, lookupParam]
  | cons p rest ih =>
      obtain ⟨k0, v0⟩ := p
      by_cases h : k0 = k
      · simp [objSet, h, lookupParam]
      · simp [objSet, h, lookupParam, ih]

theorem lookupParam_objSet_ne (m : ICUParams) (k v k' : String) (h : k ≠ k') :
    lookupParam (objSet m k v) k' = lookupParam m k' := by
  induction m with
  | nil => simp [objSet, lookupParam, h]
  | cons p rest ih =>
      obtain ⟨k0, v0⟩ := p
      by_cases hk : k0 = k
      · subst hk
        simp [objSet, lookupParam, h]
      · simp [objSet, hk, lookupParam, ih]

theorem lookupParam_eq_none_iff (m : ICUParams) (k : String) :
    lookupParam m k = none ↔ k ∉ paramKeys m := by
  induction m with
  | nil => simp [lookupParam, paramKeys]
  | cons p rest ih =>
      obtain ⟨k0, v0⟩ := p
      by_cases hk : k0 = k
      · subst hk
        simp [lookupParam, paramKeys]
      · simp [lookupParam, hk, paramKeys, Ne.symm hk] at ih ⊢
        exact ih

theorem lookupParam_objMerge_of_none (b a : ICUParams) (k : String)
    (h : lookupParam b k = none) :
    lookupParam (objMerge a b) k = lookupParam a k := by
  induction b generalizing a with
  | nil => simp [objMerge]
  | cons p rest ih =>
      obtain ⟨k0, v0⟩ := p
      by_cases hk : k0 = k
      · subst hk
        simp [lookupParam] at h
      · simp only [lookupParam, if_neg hk] at h
        rw [objMerge, ih _ h, lookupParam_objSet_ne _ _ _ _ hk]

theorem mem_paramKeys_objSet (m : ICUParams) (k v a : String) :
    a ∈ paramKeys (objSet m k v) ↔ a ∈ paramKeys m ∨ a = k := by
  induction m with
  | nil => simp [objSet, paramKeys]
  | cons p rest ih =>
      obtain ⟨k0, v0⟩ := p
      by_cases hk : k0 = k
      · subst hk
        simp [objSet, paramKeys]
        tauto
      · simp only [objSet, if_neg hk, paramKeys, List.map_cons, List.mem_cons] at ih ⊢
        rw [ih]
        tauto

theorem keysNodup_objSet (m : ICUParams) (k v : String) (h : keysNodup m) :
    keysNodup (objSet m k v) := by
  induction m with
  | nil => simp [objSet, keysNodup, paramKeys]
  | cons p rest ih =>
      obtain ⟨k0, v0⟩ := p
      simp only [keysNodup, paramKeys, List.map_cons, List.nodup_cons] at h
      by_cases hk : k0 = k
      · subst hk
        simpa [keysNodup, objSet, paramKeys, List.nodup_cons] using h
      · have hrest := ih h.2
        simp only [keysNodup, objSet, if_neg hk, paramKeys, List.map_cons,
          List.nodup_cons]
        refine ⟨?_, hrest⟩
        intro hmem
        rcases (mem_paramKeys_objSet rest k v k0).1 hmem with hin | heq
        · exact h.1 hin
        · exact hk heq

theorem keysNodup_objMerge (a b : ICUParams) (h : keysNodup a) :
    keysNodup (objMerge a b) := by
  induction b generalizing a with
  | nil => simpa [objMerge]
  | cons p rest ih =>
      obtain ⟨k0, v0⟩ := p
      rw [objMerge]
      exact ih _ (keysNodup_objSet _ _ _ h)

theorem lookupParam_objMerge_of_some (b a : ICUParams) (k t : String)
    (hnd : keysNodup b) (h : lookupParam b k = some t) :
    lookupParam (objMerge a b) k = some t := by
  induction b generalizing a with
  | nil => simp [lookupParam] at h
  | cons p rest ih =>
      obtain ⟨k0, v0⟩ := p
      simp only [keysNodup, paramKeys, List.map_cons, List.nodup_cons] at hnd
      by_cases hk : k0 = k
      · subst hk
        simp [lookupParam] at h
        have hnone : lookupParam rest k0 = none :=
          (lookupParam_eq_none_iff rest k0).2 hnd.1
        rw [objMerge, lookupParam_objMerge_of_none _ _ _ hnone, ← h]
        exact lookupParam_objSet_self _ _ _
      · simp only [lookupParam, if_neg hk] at h
        rw [objMerge]
        exact ih _ hnd.2 h

theorem mem_setAdd_self (s : List String) (x : String) : x ∈ setAdd s x := by
  by_cases h : x ∈ s <;> simp [setAdd, h]

theorem mem_setAdd_of_mem (s : List String) (x y : String) (h : y ∈ s) :
    y ∈ setAdd s x := by
  by_cases hx : x ∈ s <;> simp [setAdd, hx, h]

theorem mem_setUnion_left (b a : List String) (y : String) (h : y ∈ a) :
    y ∈ setUnion a b := by
  induction b generalizing a with
  | nil => simpa [setUnion]
  | cons x rest ih =>
      rw [setUnion]
      exact ih _ (mem_setAdd_of_mem _ _ _ h)

theorem keysNodup_extractSelectOptions (opts : List (String × List MFE))
    (params : ICUParams) (imports : List String) (h : keysNodup params) :
    keysNodup (extractSelectOptions params imports opts).1 := by
  induction opts generalizing params imports with
  | nil => simpa [extractSelectOptions]
  | cons p more ih =>
      obtain ⟨lbl, child⟩ := p
      simp only [extractSelectOptions]
      exact ih _ _ (keysNodup_objMerge _ _ h)

theorem keysNodup_extractFrom (ast : List MFE) (params : ICUParams)
    (imports : List String) (h : keysNodup params) :
    keysNodup (extractParamTypesFrom params imports ast).1 := by
  induction ast generalizing params imports with
  | nil => simpa [extractParamTypesFrom]
  | cons e rest ih =>
      cases e with
      | literal v =>
          simp only [extractParamTypesFrom]
          exact ih _ _ h
      | argument v =>
          simp only [extractParamTypesFrom]
          exact ih _ _ (keysNodup_objSet _ _ _ h)
      | number v =>
          simp only [extractParamTypesFrom]
          exact ih _ _ (keysNodup_objSet _ _ _ h)
      | date v =>
          simp only [extractParamTypesFrom]
          exact ih _ _ (keysNodup_objSet _ _ _ h)
      | time v =>
          simp only [extractParamTypesFrom]
          exact ih _ _ (keysNodup_objSet _ _ _ h)
      | plural v opts =>
          simp only [extractParamTypesFrom]
          exact ih _ _ (keysNodup_objSet _ _ _ h)
      | tag v children =>
          simp only [extractParamTypesFrom]
          exact ih _ _ (keysNodup_objMerge _ _ (keysNodup_objSet _ _ _ h))
      | select v opts =>
          simp only [extractParamTypesFrom]
          exact ih _ _
            (keysNodup_extractSelectOptions _ _ _ (keysNodup_objSet _ _ _ h))

theorem keysNodup_extractParamTypes (ast : List MFE) :
    keysNodup (extractParamTypes ast).1 :=
  keysNodup_extractFrom ast [] [] (by simp [keysNodup, paramKeys])

theorem extractParamTypesFrom_append (xs ys : List MFE) (params : ICUParams)
    (imports : List String) :
    extractParamTypesFrom params imports (xs ++ ys)
      = extractParamTypesFrom (extractParamTypesFrom params imports xs).1
          (extractParamTypesFrom params imports xs).2 ys := by
  induction xs generalizing params imports with
  | nil => simp [extractParamTypesFrom]
  | cons e rest ih => cases e <;> simp [extractParamTypesFrom, ih]

/-- True when the element is literal text (carries no placeholder). -/
def isLiteralElem : MFE → Bool
  | MFE.literal _ => true
  | _ => false

theorem extractParamTypesFrom_all_literal (ast : List MFE) (params : ICUParams)
    (imports : List String) (h : ast.all isLiteralElem = true) :
    extractParamTypesFrom params imports ast = (params, imports) := by
  induction ast generalizing params imports with
  | nil => simp [extractParamTypesFrom]
  | cons e rest ih =>
      rw [List.all_cons, Bool.and_eq_true] at h
      cases e with
      | literal v => simp [extractParamTypesFrom, ih _ _ h.2]
      | argument v => simp [isLiteralElem] at h
      | number v => simp [isLiteralElem] at h
      | date v => simp [isLiteralElem] at h
      | time v => simp [isLiteralElem] at h
      | plural v opts => simp [isLiteralElem] at h
      | select v opts => simp [isLiteralElem] at h
      | tag v children => simp [isLiteralElem] at h

theorem extractHasTags_of_mem_tag (ast : List MFE) (v : String)
    (children : List MFE) (h : MFE.tag v children ∈ ast) :
    extractHasTags ast = true := by
  induction ast with
  | nil => simp at h
  | cons e rest ih =>
      rcases List.mem_cons.1 h with he | he
      · rw [← he]
        simp [extractHasTags]
      · cases e <;> simp [extractHasTags, ih he]

theorem anyOptionHasTags_of_mem (opts : List (String × List MFE))
    (lbl : String) (child : List MFE) (h : (lbl, child) ∈ opts)
    (hc : extractHasTags child = true) : anyOptionHasTags opts = true := by
  induction opts with
  | nil => simp at h
  | cons p more ih =>
      obtain ⟨l0, c0⟩ := p
      rcases List.mem_cons.1 h with he | he
      · obtain ⟨h1, h2⟩ := Prod.mk.injEq .. ▸ he
        subst h1; subst h2
        simp [anyOptionHasTags, hc]
      · simp [anyOptionHasTags, ih he]

theorem extractHasTags_of_select_branch (ast : List MFE) (v : String)
    (opts : List (String × List MFE)) (lbl : String) (child : List MFE)
    (hmem : MFE.select v opts ∈ ast) (hopt : (lbl, child) ∈ opts)
    (hc : extractHasTags child = true) : extractHasTags ast = true := by
  induction ast with
  | nil => simp at hmem
  | cons e rest ih =>
      rcases List.mem_cons.1 hmem with he | he
      · rw [← he]
        simp [extractHasTags, anyOptionHasTags_of_mem opts lbl child hopt hc]
      · cases e <;> simp [extractHasTags, ih he]

/-- One locale's translation of one key, as seen by generateRuntime:
`translatedLanguage[key].message` together with `parse(message)`. The ICU
parser itself is an external collaborator, so the AST is supplied alongside
the raw message. -/
structure LocaleMessage where
  message : String
  ast : List MFE

/-- `interface TranslationTypeInfo` from compile.ts. -/
structure TranslationTypeInfo where
  params : ICUParams
  message : String
  returnType : String
  hasTags : Bool

/-- The per-key mutable state of the loop at compile.ts lines 177–197:
`params`, the `messages` set, the sticky `hasTags` flag, and the
running set of import lines. -/
structure KeyAcc where
  params : ICUParams
  messages : List String
  hasTags : Bool
  imports : List String

/-- One iteration of the `for (const translatedLanguage of ...)` loop for a
fixed key: a locale without a translation for the key is skipped; otherwise
the message is parsed, `hasTags` is OR-ed, the extracted parameter types are
spread over the accumulated `params`, imports are unioned, and the
single-quote-escaped message literal is added to the message set. -/
def keyStep (acc : KeyAcc) (entry : Option LocaleMessage) : KeyAcc :=
  match entry with
  | none => acc
  | some lm =>
      { params := objMerge acc.params (extractParamTypes lm.ast).1
        messages :=
          setAdd acc.messages ("'" ++ encodeWithinSingleQuotes lm.message ++ "'")
        hasTags := acc.hasTags || extractHasTags lm.ast
        imports := setUnion acc.imports (extractParamTypes lm.ast).2 }

/-- The per-key body of `generateRuntime` (compile.ts lines 176–207): fold
`keyStep` over the locales (in `Object.values` order) and build the
`TranslationTypeInfo` stored into the map, plus this key's contribution to
the import set. -/
def keyInfo (locales : List (Option LocaleMessage)) :
    TranslationTypeInfo × List String :=
  let acc := locales.foldl keyStep
    { params := [], messages := [], hasTags := false, imports := [] }
  ({ params := acc.params
     message := String.intercalate " | " acc.messages
     returnType := if acc.hasTags then "NonNullable<ReactNode>" else "string"
     hasTags := acc.hasTags }, acc.imports)

/-- Values serialisable by `serialiseObjectToType`: either a raw code
fragment (inserted verbatim) or a nested object. -/
inductive SVal where
  | leaf (code : String)
  | obj (entries : List (String × SVal))

mutual

/-- `serialiseObjectToType` from compile.ts lines 99–113: brace-delimited
sequence of `'key': value,` entries with single-quote-escaped keys. -/
def serialiseObjectToType (entries : List (String × SVal)) : String :=
  "\x7b " ++ serialiseEntries entries ++ " \x7d"

/-- The `for (const [key, value] of Object.entries(v))` loop of
`serialiseObjectToType`: nested objects are recursively serialised, other
values are inserted verbatim. -/
def serialiseEntries : List (String × SVal) → String
  | [] => ""
  | (k, v) :: rest =>
      "'" ++ encodeWithinSingleQuotes k ++ "': "
        ++ (match v with
            | SVal.leaf code => code
            | SVal.obj es => serialiseObjectToType es)
        ++ "," ++ serialiseEntries rest

end

/-- `serialiseObjectToType(params)` for a flat `ICUParams` object: every
value is a type-expression string, so every entry takes the verbatim
branch. -/
def serialiseParamsToType (params : ICUParams) : String :=
  serialiseObjectToType (params.map (fun p => (p.1, SVal.leaf p.2)))

/-- The accessor signature built per key by `serialiseTranslationRuntime`
(compile.ts lines 125–136): keys with no parameters get
`() => <message union>`; keys with parameters get a function over the
serialised parameter object, with the generic parameter and the broadened
return type exactly when `hasTags` is set. -/
def translationFunctionString (info : TranslationTypeInfo) : String :=
  if 0 < info.params.length then
    (if info.hasTags then "<T = string>" else "")
      ++ "(values: " ++ serialiseParamsToType info.params ++ ") => "
      ++ (if info.hasTags then "string | T | Array<string | T>" else "string")
  else
    "() => " ++ info.message

/-- The `translationsType` object assembled across lines 125–139 and
176–208: one entry per key of the unit, keyed by the backslash-escaped key,
holding the accessor signature derived from that key's per-locale data. -/
def translationEntriesFor (keys : List String)
    (locales : String → List (Option LocaleMessage)) : List (String × String) :=
  keys.map (fun k =>
    (encodeBackslash k, translationFunctionString (keyInfo (locales k)).1))

/-- The distinct single-quoted message literals observed across locales for
one key, in first-seen order (the `messages` set of generateRuntime). -/
def quotedMessages (locales : List (Option LocaleMessage)) : List String :=
  locales.foldl
    (fun acc o =>
      match o with
      | none => acc
      | some lm =>
          setAdd acc ("'" ++ encodeWithinSingleQuotes lm.message ++ "'")) []

/-- `writeIfChanged` from compile.ts lines 315–329, over an explicit model
of the output file: `none` means reading the file fails (treated as absent,
`hasChanged` stays `true`); otherwise the freshly produced text is compared
byte-for-byte with the existing content. Returns the file state after the
call and whether a write was performed. -/
def writeIfChanged : Option String → String → Option String × Bool
  | none, contents => (some contents, true)
  | some existing, contents =>
      if existing = contents then (some existing, false) else (some contents, true)

/-- The external path predicates and mappings `onTranslationChange` consults
(from `./utils` and node's `path`), supplied as an interface. -/
structure WatchDeps where
  isDevLanguageFile : String → Bool
  isAltLanguageFile : String → Bool
  resolvePath : String → String
  devFromAltFile : String → String

/-- The classification step of `onTranslationChange` (compile.ts lines
246–254): an authoring-locale path resolves to itself, a derived-locale
path resolves to its authoring-locale sibling, anything else yields no
target. -/
def targetFileFor (d : WatchDeps) (p : String) : Option String :=
  if d.isDevLanguageFile p then some (d.resolvePath p)
  else if d.isAltLanguageFile p then some (d.devFromAltFile (d.resolvePath p))
  else none

/-- Observable behaviour of one `onTranslationChange` invocation:
which target file (if any) was reloaded-and-regenerated, and which relative
path (if any) was logged by the catch block. -/
structure ChangeOutcome where
  generated : Option String
  logged : Option String

/-- `onTranslationChange` from compile.ts lines 243–271. The combined
`loadTranslation` + `generateRuntime` step is an external effect modelled as
`gen`; a thrown error is its `Except.error` case. The handler is total: the
try/catch turns a failure into a log entry carrying the triggering relative
path, and the watch session continues either way. -/
def onTranslationChange (d : WatchDeps) (gen : String → Except String Unit)
    (p : String) : ChangeOutcome :=
  match targetFileFor d p with
  | none => { generated := none, logged := none }
  | some t =>
      match gen t with
      | Except.ok _ => { generated := some t, logged := none }
      | Except.error _ => { generated := some t, logged := some p }

/-- The external collaborators of `onNewDirectory`: the
translation-directory predicate, the conventional authoring-locale file
name, and `path.join`. -/
structure DirDeps where
  isTranslationDirectory : String → Bool
  devTranslationFileName : String
  joinPath : String → String → String

/-- `JSON.stringify({}, null, 2)` — the seed content of a fresh
authoring-locale file. -/
def emptyTranslationFileContent : String := "\x7b\x7d"

/-- Point update of the filesystem model. -/
def fsUpdate (fs : String → Option String) (f c : String) :
    String → Option String :=
  fun x => if x = f then some c else fs x

/-- `onNewDirectory` from compile.ts lines 273–288, over a filesystem
modelled as a map from path to file content. Returns the filesystem after
the call together with the list of writes performed (path, content). -/
def onNewDirectory (d : DirDeps) (fs : String → Option String) (p : String) :
    (String → Option String) × List (String × String) :=
  if d.isTranslationDirectory p then
    match fs (d.joinPath p d.devTranslationFileName) with
    | none =>
        (fsUpdate fs (d.joinPath p d.devTranslationFileName)
            emptyTranslationFileContent,
          [(d.joinPath p d.devTranslationFileName, emptyTranslationFileContent)])
    | some _ => (fs, [])
  else (fs, [])

/-- Meaning of an escape `\e` in a single-quoted ECMAScript string literal
in a module (strict-mode) context: the single escape characters map to
their control characters, the legacy octal escapes `\1`..`\9` are syntax
errors, and any other character — including the quote and the backslash —
denotes itself. The length-prefixed `\x`/`\u` hex and unicode escapes and
line continuations are not decoded by this model (treated as parse
failures); the encoder's only escape output is backslash + quote, so they
never arise in any statement proved here. -/
def escapeChar (e : Char) : Option Char :=
  if e = 'n' then some (Char.ofNat 10)
  else if e = 't' then some (Char.ofNat 9)
  else if e = 'r' then some (Char.ofNat 13)
  else if e = 'b' then some (Char.ofNat 8)
  else if e = 'f' then some (Char.ofNat 12)
  else if e = 'v' then some (Char.ofNat 11)
  else if e = '0' then some (Char.ofNat 0)
  else if 49 ≤ e.toNat ∧ e.toNat ≤ 57 then none
  else if e = 'x' then none
  else if e = 'u' then none
  else some e

/-- Read the body of a single-quoted ECMAScript string literal out of the
generated text, starting just after the opening quote: collect characters
until the unescaped closing quote, decoding escape sequences via
`escapeChar`. Returns the decoded string and the remaining text, or `none`
when the literal is malformed (in particular when a backslash swallows the
closing delimiter). -/
def readQuotedBody : List Char → Option (List Char × List Char)
  | [] => none
  | c :: r =>
      if c = qm then some ([], r)
      else if c = bs then
        match r with
        | [] => none
        | e :: r2 =>
            match escapeChar e with
            | some ch => (readQuotedBody r2).map (fun pr => (ch :: pr.1, pr.2))
            | none => none
      else
        (readQuotedBody r).map (fun pr => (c :: pr.1, pr.2))

/-- Parse a single-quoted string literal found in the generated text:
expect the opening quote, then read the body. -/
def parseSingleQuoted : List Char → Option (List Char × List Char)
  | [] => none
  | c :: rest => if c = qm then readQuotedBody rest else none

/-- How a message literal is embedded in the generated module at compile.ts
lines 194–196: `'${encodeWithinSingleQuotes(message)}'`. -/
def embedSingleQuoted (msg : List Char) : List Char :=
  qm :: (encodeQuotesList msg ++ [qm])

theorem lookupParam_extractSelectOptions_of_none (opts : List (String × List MFE))
    (params : ICUParams) (imports : List String) (k : String)
    (h : ∀ lbl child, (lbl, child) ∈ opts →
      lookupParam (extractParamTypes child).1 k = none) :
    lookupParam (extractSelectOptions params imports opts).1 k
      = lookupParam params k := by
  induction opts generalizing params imports with
  | nil => simp [extractSelectOptions]
  | cons p more ih =>
      obtain ⟨lbl, child⟩ := p
      simp only [extractSelectOptions]
      rw [ih _ _ (fun l c hm => h l c (List.mem_cons_of_mem _ hm))]
      exact lookupParam_objMerge_of_none _ _ _ (h lbl child (List.mem_cons_self _ _))

/-- Claim C1: the placeholder type inferencer maps each placeholder to its
type by node kind — argument ↦ `string`, number ↦ `number`, plural ↦
`number`, date/time ↦ `Date | number`, tag ↦ `FormatXMLElementFn<T>`
(adding the corresponding import to the returned import set), select ↦ the
union of single-quoted option labels. For tag and select, the entry is
stated under the proviso that no recursively extracted child overwrites the
placeholder's own name. -/
theorem claim1_param_types_by_kind (v : String) (opts : List (String × List MFE))
    (children : List MFE) :
    extractParamTypes [MFE.argument v] = ([(v, "string")], [])
    ∧ extractParamTypes [MFE.number v] = ([(v, "number")], [])
    ∧ extractParamTypes [MFE.plural v opts] = ([(v, "number")], [])
    ∧ extractParamTypes [MFE.date v] = ([(v, "Date | number")], [])
    ∧ extractParamTypes [MFE.time v] = ([(v, "Date | number")], [])
    ∧ (lookupParam (extractParamTypes children).1 v = none →
        lookupParam (extractParamTypes [MFE.tag v children]).1 v
          = some "FormatXMLElementFn<T>")
    ∧ formatXMLElementFnImport ∈ (extractParamTypes [MFE.tag v children]).2
    ∧ ((∀ lbl child, (lbl, child) ∈ opts →
          lookupParam (extractParamTypes child).1 v = none) →
        lookupParam (extractParamTypes [MFE.select v opts]).1 v
          = some (selectUnion opts)) := by
  refine ⟨?_, ?_, ?_, ?_, ?_, ?_, ?_, ?_⟩
  · simp [extractParamTypes, extractParamTypesFrom, objSet]
  · simp [extractParamTypes, extractParamTypesFrom, objSet]
  · simp [extractParamTypes, extractParamTypesFrom, objSet]
  · simp [extractParamTypes, extractParamTypesFrom, objSet]
  · simp [extractParamTypes, extractParamTypesFrom, objSet]
  · intro h
    simp only [extractParamTypes] at h
    simp only [extractParamTypes, extractParamTypesFrom]
    rw [lookupParam_objMerge_of_none _ _ _ h]
    simp [objSet, lookupParam]
  · simp only [extractParamTypes, extractParamTypesFrom]
    exact mem_setUnion_left _ _ _ (mem_setAdd_self _ _)
  · intro h
    simp only [extractParamTypes, extractParamTypesFrom]
    rw [lookupParam_extractSelectOptions_of_none _ _ _ _ h]
    simp [objSet, lookupParam]

/-- Witness for C1 at concrete inputs: a tag whose child does not reuse the
tag's name, and a select with labels `a` and `b` whose branches are empty. -/
theorem claim1_witness :
    lookupParam (extractParamTypes [MFE.tag "n" [MFE.argument "kid"]]).1 "n"
        = some "FormatXMLElementFn<T>"
    ∧ lookupParam (extractParamTypes [MFE.select "n" [("a", []), ("b", [])]]).1 "n"
        = some "'a' | 'b'" := by
  have h := claim1_param_types_by_kind "n" [("a", []), ("b", [])]
    [MFE.argument "kid"]
  constructor
  · exact h.2.2.2.2.2.1
      (by simp [extractParamTypes, extractParamTypesFrom, objSet, lookupParam])
  · have hs := h.2.2.2.2.2.2.2 (by
      intro lbl child hm
      have hchild : child = [] := by
        rcases List.mem_cons.1 hm with h1 | h1
        · exact congrArg Prod.snd h1
        · rcases List.mem_cons.1 h1 with h2 | h2
          · exact congrArg Prod.snd h2
          · simp at h2
      subst hchild
      simp [extractParamTypes, extractParamTypesFrom, lookupParam])
    rw [hs]
    rfl

/-- Counterexample to C2 as stated: the inferencer does not recurse into
plural branches, so an argument placeholder nested in a plural-category
branch contributes nothing to the parameter map. -/
theorem claim2_counterexample :
    lookupParam
        (extractParamTypes
          [MFE.plural "count" [("one", [MFE.argument "name"])]]).1 "name"
      = none := by
  simp [extractParamTypes, extractParamTypesFrom, objSet, lookupParam]

theorem mem_paramKeys_objMerge_left (b a : ICUParams) (k : String)
    (h : k ∈ paramKeys a) : k ∈ paramKeys (objMerge a b) := by
  induction b generalizing a with
  | nil => simpa [objMerge]
  | cons p rest ih =>
      obtain ⟨k0, v0⟩ := p
      rw [objMerge]
      exact ih _ ((mem_paramKeys_objSet _ _ _ _).2 (Or.inl h))

theorem mem_paramKeys_objMerge_right (b a : ICUParams) (k : String)
    (h : k ∈ paramKeys b) : k ∈ paramKeys (objMerge a b) := by
  induction b generalizing a with
  | nil => simp [paramKeys] at h
  | cons p rest ih =>
      obtain ⟨k0, v0⟩ := p
      rw [objMerge]
      simp only [paramKeys, List.map_cons, List.mem_cons] at h
      rcases h with he | he
      · exact mem_paramKeys_objMerge_left _ _ _
          ((mem_paramKeys_objSet _ _ _ _).2 (Or.inr he))
      · exact ih _ he

theorem paramKeys_extractSelectOptions_mono (opts : List (String × List MFE))
    (params : ICUParams) (imports : List String) (k : String)
    (h : k ∈ paramKeys params) :
    k ∈ paramKeys (extractSelectOptions params imports opts).1 := by
  induction opts generalizing params imports with
  | nil => simpa [extractSelectOptions]
  | cons p more ih =>
      obtain ⟨lbl, child⟩ := p
      simp only [extractSelectOptions]
      exact ih _ _ (mem_paramKeys_objMerge_left _ _ _ h)

theorem mem_paramKeys_extractSelectOptions (opts : List (String × List MFE))
    (params : ICUParams) (imports : List String) (k lbl : String)
    (child : List MFE) (hm : (lbl, child) ∈ opts)
    (h : k ∈ paramKeys (extractParamTypes child).1) :
    k ∈ paramKeys (extractSelectOptions params imports opts).1 := by
  induction opts generalizing params imports with
  | nil => simp at hm
  | cons p more ih =>
      obtain ⟨l0, c0⟩ := p
      rcases List.mem_cons.1 hm with he | he
      · have hc0 : c0 = child := (congrArg Prod.snd he).symm
        subst hc0
        simp only [extractSelectOptions]
        exact paramKeys_extractSelectOptions_mono _ _ _ _
          (mem_paramKeys_objMerge_right _ _ _ h)
      · simp only [extractSelectOptions]
        exact ih _ _ he

theorem extractSelectOptions_append (pre suf : List (String × List MFE))
    (params : ICUParams) (imports : List String) :
    extractSelectOptions params imports (pre ++ suf)
      = extractSelectOptions (extractSelectOptions params imports pre).1
          (extractSelectOptions params imports pre).2 suf := by
  induction pre generalizing params imports with
  | nil => simp [extractSelectOptions]
  | cons p more ih =>
      obtain ⟨lbl, child⟩ := p
      simp only [List.cons_append, extractSelectOptions]
      exact ih _ _

theorem lookupParam_isSome_iff (m : ICUParams) (k : String) :
    (lookupParam m k).isSome = true ↔ k ∈ paramKeys m := by
  constructor
  · intro h
    by_contra hmem
    rw [(lookupParam_eq_none_iff m k).2 hmem] at h
    simp at h
  · intro hmem
    cases hl : lookupParam m k with
    | none => exact absurd ((lookupParam_eq_none_iff m k).1 hl) (by simpa)
    | some t => rfl

/-- Claim C2 (amended): the inferencer recurses into the children of every
select-option branch, so a nested placeholder inside any branch of a select
contributes its inferred type to the returned map — its name is always
present, and carries exactly the branch's inferred type whenever no later
branch redefines it (later branches win on collision, per the documented
last-write-wins merge). Plural branches are not recursed into — a plural
placeholder contributes exactly its own `number` entry, regardless of its
branches' contents. -/
theorem claim2_amended_select_branches (v k ty lbl : String)
    (opts pre post : List (String × List MFE)) (child : List MFE) :
    extractParamTypes [MFE.plural v opts] = ([(v, "number")], [])
    ∧ ((lbl, child) ∈ opts →
        lookupParam (extractParamTypes child).1 k = some ty →
        (lookupParam (extractParamTypes [MFE.select v opts]).1 k).isSome
          = true)
    ∧ (opts = pre ++ (lbl, child) :: post →
        lookupParam (extractParamTypes child).1 k = some ty →
        (∀ l2 c2, (l2, c2) ∈ post →
          lookupParam (extractParamTypes c2).1 k = none) →
        lookupParam (extractParamTypes [MFE.select v opts]).1 k = some ty) := by
  refine ⟨?_, ?_, ?_⟩
  · simp [extractParamTypes, extractParamTypesFrom, objSet]
  · intro hm h
    simp only [extractParamTypes, extractParamTypesFrom]
    refine (lookupParam_isSome_iff _ _).2 ?_
    exact mem_paramKeys_extractSelectOptions _ _ _ _ _ _ hm
      ((lookupParam_isSome_iff _ _).1 (by rw [h]; rfl))
  · intro heq h hpost
    subst heq
    simp only [extractParamTypes, extractParamTypesFrom]
    rw [extractSelectOptions_append]
    simp only [extractSelectOptions]
    rw [lookupParam_extractSelectOptions_of_none _ _ _ _ hpost]
    exact lookupParam_objMerge_of_some _ _ _ _
      (keysNodup_extractParamTypes child) h

/-- Witness for C2 (amended): in a three-branch select, the middle branch's
`{name}` yields a `string` entry for `name` in the merged map. -/
theorem claim2_witness :
    lookupParam
        (extractParamTypes
          [MFE.select "sel"
            [("a", [MFE.literal "A"]), ("b", [MFE.argument "name"]),
              ("c", [MFE.literal "C"])]]).1 "name"
      = some "string" := by
  exact (claim2_amended_select_branches "sel" "name" "string" "b"
      [("a", [MFE.literal "A"]), ("b", [MFE.argument "name"]),
        ("c", [MFE.literal "C"])]
      [("a", [MFE.literal "A"])] [("c", [MFE.literal "C"])]
      [MFE.argument "name"]).2.2
    rfl
    (by simp [extractParamTypes, extractParamTypesFrom, objSet, lookupParam])
    (by
      intro l2 c2 hm
      have hc : c2 = [MFE.literal "C"] := by
        rcases List.mem_cons.1 hm with h1 | h1
        · exact congrArg Prod.snd h1
        · simp at h1
      subst hc
      simp [extractParamTypes, extractParamTypesFrom, lookupParam])

mutual

/-- The notion of markup presence used by the claim, following the spec's
words rather than the code: a tag placeholder anywhere at any depth —
through select branches and plural branches alike. Stated only to be
compared against the code's `extractHasTags`. -/
def containsTagAnyDepth : List MFE → Bool
  | [] => false
  | MFE.tag _ _ :: _ => true
  | MFE.select _ opts :: rest =>
      anyOptionContainsTag opts || containsTagAnyDepth rest
  | MFE.plural _ opts :: rest =>
      anyOptionContainsTag opts || containsTagAnyDepth rest
  | MFE.literal _ :: rest => containsTagAnyDepth rest
  | MFE.argument _ :: rest => containsTagAnyDepth rest
  | MFE.number _ :: rest => containsTagAnyDepth rest
  | MFE.date _ :: rest => containsTagAnyDepth rest
  | MFE.time _ :: rest => containsTagAnyDepth rest

/-- Any-depth tag search over a branch list. -/
def anyOptionContainsTag : List (String × List MFE) → Bool
  | [] => false
  | (_, child) :: more => containsTagAnyDepth child || anyOptionContainsTag more

end

theorem keyFold_hasTags_mono (locales : List (Option LocaleMessage))
    (acc : KeyAcc) (h : acc.hasTags = true) :
    (locales.foldl keyStep acc).hasTags = true := by
  induction locales generalizing acc with
  | nil => simpa
  | cons o rest ih =>
      cases o with
      | none => exact ih _ (by simpa [keyStep])
      | some lm => exact ih _ (by simp [keyStep, h])

theorem keyFold_hasTags_of_mem (locales : List (Option LocaleMessage))
    (acc : KeyAcc) (lm : LocaleMessage) (hmem : some lm ∈ locales)
    (h : extractHasTags lm.ast = true) :
    (locales.foldl keyStep acc).hasTags = true := by
  induction locales generalizing acc with
  | nil => simp at hmem
  | cons o rest ih =>
      rcases List.mem_cons.1 hmem with he | he
      · rw [List.foldl_cons, ← he]
        exact keyFold_hasTags_mono _ _ (by simp [keyStep, h])
      · rw [List.foldl_cons]
        exact ih _ he

/-- Counterexample to C3 as stated: a message whose only markup sits inside
a plural-category branch contains a tag placeholder at depth, yet the
computed has-markup flag is false and the key's return type stays
`string` — `extractHasTags` does not look inside plural branches. -/
theorem claim3_counterexample :
    containsTagAnyDepth [MFE.plural "count" [("one", [MFE.tag "b" []])]] = true
    ∧ (keyInfo [some ⟨"m",
        [MFE.plural "count" [("one", [MFE.tag "b" []])]]⟩]).1.hasTags = false
    ∧ (keyInfo [some ⟨"m",
        [MFE.plural "count" [("one", [MFE.tag "b" []])]]⟩]).1.returnType
        = "string" := by
  refine ⟨?_, ?_, ?_⟩
  · simp [containsTagAnyDepth, anyOptionContainsTag]
  · simp [keyInfo, keyStep, extractHasTags]
  · simp [keyInfo, keyStep, extractHasTags]

/-- Claim C3 (amended): if any locale's message for a key contains a tag
placeholder at the top level or inside a select-option branch (but not
inside plural branches, which the markup check does not visit), the key's
has-markup flag is true — a monotonic OR over all locale observations — and
the key's computed return type is `NonNullable<ReactNode>`. -/
theorem claim3_hasTags_union_wide (locales : List (Option LocaleMessage))
    (lm : LocaleMessage) (ast : List MFE) (v lbl : String)
    (children child : List MFE) (opts : List (String × List MFE)) :
    (some lm ∈ locales → extractHasTags lm.ast = true →
      (keyInfo locales).1.hasTags = true)
    ∧ (MFE.tag v children ∈ ast → extractHasTags ast = true)
    ∧ (MFE.select v opts ∈ ast → (lbl, child) ∈ opts →
        extractHasTags child = true → extractHasTags ast = true)
    ∧ ((keyInfo locales).1.hasTags = true →
        (keyInfo locales).1.returnType = "NonNullable<ReactNode>") := by
  refine ⟨?_, ?_, ?_, ?_⟩
  · intro hmem h
    simp only [keyInfo]
    exact keyFold_hasTags_of_mem _ _ _ hmem h
  · intro hmem
    exact extractHasTags_of_mem_tag _ _ _ hmem
  · intro hmem hopt hc
    exact extractHasTags_of_select_branch _ _ _ _ _ hmem hopt hc
  · intro h
    simp only [keyInfo] at h ⊢
    simp [h]

/-- Witness for C3 (amended) at concrete inputs: one locale without markup
and one with a top-level tag; a tag behind a literal; a tag inside a select
branch; and the return-type promotion on the two-locale key. -/
theorem claim3_witness :
    (keyInfo [some ⟨"m1", [MFE.literal "x"]⟩,
        some ⟨"m2", [MFE.tag "b" []]⟩]).1.hasTags = true
    ∧ extractHasTags [MFE.literal "a", MFE.tag "t" []] = true
    ∧ extractHasTags [MFE.select "s" [("one", [MFE.tag "t" []])]] = true
    ∧ (keyInfo [some ⟨"m1", [MFE.literal "x"]⟩,
        some ⟨"m2", [MFE.tag "b" []]⟩]).1.returnType
        = "NonNullable<ReactNode>" := by
  have h := claim3_hasTags_union_wide
    [some ⟨"m1", [MFE.literal "x"]⟩, some ⟨"m2", [MFE.tag "b" []]⟩]
    ⟨"m2", [MFE.tag "b" []]⟩ [MFE.literal "a", MFE.tag "t" []] "t" "one"
    [] [MFE.tag "t" []] [("one", [MFE.tag "t" []])]
  have h2 := claim3_hasTags_union_wide [] ⟨"", []⟩
    [MFE.select "s" [("one", [MFE.tag "t" []])]] "s" "one" []
    [MFE.tag "t" []] [("one", [MFE.tag "t" []])]
  have h1 := h.1 (by simp) (by simp [extractHasTags])
  exact ⟨h1, h.2.1 (by simp),
    h2.2.2.1 (by simp) (by simp) (by simp [extractHasTags]), h.2.2.2 h1⟩

/-- Counterexample to C4 as stated: when the output file already holds
exactly the produced text, two successive invocations perform zero writes,
not exactly one. -/
theorem claim4_counterexample :
    (writeIfChanged (some "x") "x").2 = false
    ∧ (writeIfChanged (writeIfChanged (some "x") "x").1 "x").2 = false := by
  constructor <;> rfl

/-- Claim C4 (amended): a write is performed iff reading the existing file
fails (content absent) or the produced text differs from the existing
content; after any invocation the file holds the produced text, so a second
invocation with the same text performs no write, and the two invocations
together perform exactly one write whenever the file was initially absent
or stale (zero when it was already up to date). -/
theorem claim4_write_iff_changed (existing : Option String) (contents : String) :
    ((writeIfChanged existing contents).2 = true ↔
      existing = none ∨ existing ≠ some contents)
    ∧ (writeIfChanged existing contents).1 = some contents
    ∧ (writeIfChanged (writeIfChanged existing contents).1 contents).2 = false
    ∧ (existing ≠ some contents →
        (writeIfChanged existing contents).2.toNat
          + (writeIfChanged (writeIfChanged existing contents).1 contents).2.toNat
          = 1) := by
  cases existing with
  | none => simp [writeIfChanged]
  | some e =>
      by_cases he : e = contents
      · subst he
        simp [writeIfChanged]
      · simp [writeIfChanged, he]

/-- Witness for C4 (amended) at a concrete input: output file initially
absent, two runs, exactly one write. -/
theorem claim4_witness :
    (writeIfChanged none "out").2.toNat
      + (writeIfChanged (writeIfChanged none "out").1 "out").2.toNat = 1 :=
  (claim4_write_iff_changed none "out").2.2.2 (by decide)

/-- Claim C5: the merged parameter map keeps the type written last in
processing order, silently overwriting earlier entries — across sibling
nodes (an argument placeholder processed last wins for its name), across
locales (the last locale's extracted type wins in the per-key merge), and
across recursive tag children (a child entry overwrites even the tag's own
callback entry for the same name). -/
theorem claim5_last_write_wins (ast children : List MFE) (v ty : String)
    (locales : List (Option LocaleMessage)) (lm : LocaleMessage) :
    lookupParam (extractParamTypes (ast ++ [MFE.argument v])).1 v = some "string"
    ∧ (lookupParam (extractParamTypes lm.ast).1 v = some ty →
        lookupParam (keyInfo (locales ++ [some lm])).1.params v = some ty)
    ∧ (lookupParam (extractParamTypes children).1 v = some ty →
        lookupParam (extractParamTypes [MFE.tag v children]).1 v = some ty) := by
  refine ⟨?_, ?_, ?_⟩
  · show lookupParam
        (extractParamTypesFrom [] [] (ast ++ [MFE.argument v])).1 v = _
    rw [extractParamTypesFrom_append]
    simp only [extractParamTypesFrom]
    exact lookupParam_objSet_self _ _ _
  · intro h
    simp only [keyInfo, List.foldl_append, List.foldl_cons, List.foldl_nil,
      keyStep]
    exact lookupParam_objMerge_of_some _ _ _ _
      (keysNodup_extractParamTypes lm.ast) h
  · intro h
    simp only [extractParamTypes] at h
    simp only [extractParamTypes, extractParamTypesFrom]
    exact lookupParam_objMerge_of_some _ _ _ _
      (keysNodup_extractParamTypes children) h

/-- Witness for C5 at concrete inputs: duplicate sibling arguments; a later
locale overwriting an earlier locale's `number` entry with `string`; and a
tag whose child argument overwrites the tag's own callback entry. -/
theorem claim5_witness :
    lookupParam (extractParamTypes
        [MFE.number "x", MFE.argument "x"]).1 "x" = some "string"
    ∧ lookupParam (keyInfo [some ⟨"a", [MFE.number "x"]⟩,
        some ⟨"b", [MFE.argument "x"]⟩]).1.params "x" = some "string"
    ∧ lookupParam (extractParamTypes
        [MFE.tag "x" [MFE.argument "x"]]).1 "x" = some "string" := by
  have h := claim5_last_write_wins [MFE.number "x"] [MFE.argument "x"] "x"
    "string" [some ⟨"a", [MFE.number "x"]⟩] ⟨"b", [MFE.argument "x"]⟩
  refine ⟨?_, ?_, ?_⟩
  · simpa using h.1
  · simpa using h.2.1
      (by simp [extractParamTypes, extractParamTypesFrom, objSet, lookupParam])
  · exact h.2.2
      (by simp [extractParamTypes, extractParamTypesFrom, objSet, lookupParam])

theorem bs_ne_qm : ¬ bs = qm := by decide

theorem escapeChar_qm : escapeChar qm = some qm := by decide

theorem readQuotedBody_nil : readQuotedBody [] = none := rfl

theorem readQuotedBody_closing (r : List Char) :
    readQuotedBody (qm :: r) = some ([], r) := by
  rw [readQuotedBody.eq_def]
  simp

theorem readQuotedBody_escape_qm (r : List Char) :
    readQuotedBody (bs :: qm :: r)
      = (readQuotedBody r).map (fun pr => (qm :: pr.1, pr.2)) := by
  rw [readQuotedBody.eq_def]
  simp [bs_ne_qm, escapeChar_qm]

theorem readQuotedBody_plain (c : Char) (r : List Char) (h1 : ¬ c = qm)
    (h2 : ¬ c = bs) :
    readQuotedBody (c :: r)
      = (readQuotedBody r).map (fun pr => (c :: pr.1, pr.2)) := by
  rw [readQuotedBody.eq_def]
  simp [h1, h2]

theorem encodeQuotesList_qm (cs : List Char) :
    encodeQuotesList (qm :: cs) = bs :: qm :: encodeQuotesList cs := by
  simp [encodeQuotesList]

theorem encodeQuotesList_other (c : Char) (cs : List Char) (h : ¬ c = qm) :
    encodeQuotesList (c :: cs) = c :: encodeQuotesList cs := by
  simp [encodeQuotesList, h]

theorem readQuotedBody_encode (msg rest : List Char) (h : bs ∉ msg) :
    readQuotedBody (encodeQuotesList msg ++ (qm :: rest)) = some (msg, rest) := by
  induction msg with
  | nil =>
      simp only [encodeQuotesList, List.nil_append]
      exact readQuotedBody_closing rest
  | cons c cs ih =>
      rw [List.mem_cons, not_or] at h
      have hc : ¬ c = bs := fun hx => h.1 hx.symm
      have ihr := ih h.2
      by_cases hq : c = qm
      · subst hq
        rw [encodeQuotesList_qm, List.cons_append, List.cons_append,
          readQuotedBody_escape_qm, ihr]
        rfl
      · rw [encodeQuotesList_other c cs hq, List.cons_append,
          readQuotedBody_plain c _ hq hc, ihr]
        rfl

/-- Counterexample to C6 as stated: the encoder leaves backslashes
unescaped, so a message consisting of a single backslash is embedded as
`'\'` — the backslash escapes the closing delimiter and the literal cannot
be parsed back at all, let alone to the original string. -/
theorem claim6_counterexample :
    parseSingleQuoted (embedSingleQuoted [bs]) = none := by
  have hb : embedSingleQuoted [bs] = qm :: bs :: qm :: [] := by
    simp [embedSingleQuoted, encodeQuotesList, bs_ne_qm]
  rw [hb]
  have hq : readQuotedBody (bs :: qm :: ([] : List Char)) = none := by
    rw [readQuotedBody_escape_qm, readQuotedBody_nil]
    rfl
  simpa [parseSingleQuoted] using hq

/-- Claim C6 (amended): for every literal message string containing no
backslash — in particular any string containing single quotes — embedding
it via `encodeWithinSingleQuotes` inside single-quote delimiters and
parsing the literal back out of the generated text yields the original
string. Messages containing a backslash are embedded with the backslash
unescaped and do not round-trip. -/
theorem claim6_quote_roundtrip (msg : List Char) (h : bs ∉ msg) :
    parseSingleQuoted (embedSingleQuoted msg) = some (msg, []) := by
  have hr := readQuotedBody_encode msg [] h
  simp only [embedSingleQuoted, parseSingleQuoted, if_pos rfl]
  simpa using hr

/-- Witness for C6 (amended): a message that is exactly one single quote
round-trips. -/
theorem claim6_witness :
    bs ∉ [qm] ∧ parseSingleQuoted (embedSingleQuoted [qm]) = some ([qm], []) :=
  ⟨by decide, claim6_quote_roundtrip [qm] (by decide)⟩

theorem keyFold_params_all_literal (locales : List (Option LocaleMessage))
    (acc : KeyAcc)
    (h : ∀ lm : LocaleMessage, some lm ∈ locales →
      lm.ast.all isLiteralElem = true) :
    (locales.foldl keyStep acc).params = acc.params := by
  induction locales generalizing acc with
  | nil => rfl
  | cons o rest ih =>
      rw [List.foldl_cons]
      cases o with
      | none =>
          rw [show keyStep acc none = acc from rfl]
          exact ih _ (fun lm hm => h lm (List.mem_cons_of_mem _ hm))
      | some lm =>
          have hl := h lm (List.mem_cons_self _ _)
          have hstep : (keyStep acc (some lm)).params = acc.params := by
            simp only [keyStep]
            rw [show extractParamTypes lm.ast = ([], []) from
              extractParamTypesFrom_all_literal _ _ _ hl]
            rfl
          rw [show (rest.foldl keyStep (keyStep acc (some lm))).params
              = acc.params from hstep ▸
            ih _ (fun lm2 hm => h lm2 (List.mem_cons_of_mem _ hm))]

theorem keyFold_messages (locales : List (Option LocaleMessage)) (acc : KeyAcc) :
    (locales.foldl keyStep acc).messages
      = locales.foldl
          (fun ms o =>
            match o with
            | none => ms
            | some lm =>
                setAdd ms ("'" ++ encodeWithinSingleQuotes lm.message ++ "'"))
          acc.messages := by
  induction locales generalizing acc with
  | nil => rfl
  | cons o rest ih =>
      cases o with
      | none => simpa [keyStep] using ih acc
      | some lm =>
          rw [List.foldl_cons, List.foldl_cons]
          exact ih _

/-- Claim C7: for a key whose messages in all locales are pure literal text
(no placeholders), the inferred parameter map is empty and the generated
accessor is the zero-argument function whose return type is the union of
the distinct single-quoted message literals observed across locales. -/
theorem claim7_literal_only_zero_params (locales : List (Option LocaleMessage))
    (h : ∀ lm : LocaleMessage, some lm ∈ locales →
      lm.ast.all isLiteralElem = true) :
    (keyInfo locales).1.params = []
    ∧ translationFunctionString (keyInfo locales).1
        = "() => " ++ String.intercalate " | " (quotedMessages locales) := by
  have hp : (keyInfo locales).1.params = [] := by
    simp only [keyInfo]
    exact keyFold_params_all_literal _ _ h
  refine ⟨hp, ?_⟩
  have hm : (keyInfo locales).1.message
      = String.intercalate " | " (quotedMessages locales) := by
    simp only [keyInfo, quotedMessages]
    rw [keyFold_messages]
  rw [translationFunctionString, hp, hm]
  rfl

/-- Witness for C7: two literal-only locales, `Hello` and `Bonjour`. -/
theorem claim7_witness :
    (keyInfo [some ⟨"Hello", [MFE.literal "Hello"]⟩,
        some ⟨"Bonjour", [MFE.literal "Bonjour"]⟩]).1.params = []
    ∧ translationFunctionString
        (keyInfo [some ⟨"Hello", [MFE.literal "Hello"]⟩,
          some ⟨"Bonjour", [MFE.literal "Bonjour"]⟩]).1
        = "() => 'Hello' | 'Bonjour'" := by
  have h := claim7_literal_only_zero_params
    [some ⟨"Hello", [MFE.literal "Hello"]⟩,
      some ⟨"Bonjour", [MFE.literal "Bonjour"]⟩]
    (by
      intro lm hm
      rcases List.mem_cons.1 hm with he | he
      · cases Option.some.inj he
        decide
      · rcases List.mem_cons.1 he with he2 | he2
        · cases Option.some.inj he2
          decide
        · simp at he2)
  refine ⟨h.1, ?_⟩
  rw [h.2]
  decide

/-- Claim C8: the change handler takes no action on a path that classifies
neither as an authoring-locale nor as a derived-locale file; otherwise it
reloads and regenerates the resolved target unit, and an error thrown
during reload or generation is caught and logged with the triggering
relative path — the handler returns an outcome in every case, so the watch
session is never terminated by a failing event. -/
theorem claim8_change_isolation (d : WatchDeps)
    (gen : String → Except String Unit) (p : String) :
    (d.isDevLanguageFile p = false → d.isAltLanguageFile p = false →
      onTranslationChange d gen p = { generated := none, logged := none })
    ∧ (∀ t, targetFileFor d p = some t →
        (onTranslationChange d gen p).generated = some t)
    ∧ (∀ t e, targetFileFor d p = some t → gen t = Except.error e →
        (onTranslationChange d gen p).logged = some p)
    ∧ (∀ t, targetFileFor d p = some t → gen t = Except.ok () →
        (onTranslationChange d gen p).logged = none) := by
  refine ⟨?_, ?_, ?_, ?_⟩
  · intro h1 h2
    simp [onTranslationChange, targetFileFor, h1, h2]
  · intro t ht
    rw [onTranslationChange, ht]
    cases hg : gen t <;> simp [hg]
  · intro t e ht hg
    rw [onTranslationChange, ht]
    simp [hg]
  · intro t ht hg
    rw [onTranslationChange, ht]
    simp [hg]

/-- Witness for C8 at concrete inputs: an unclassified path is ignored; an
authoring-locale path is regenerated at its resolved target; a failing
generation is logged with the triggering relative path. -/
theorem claim8_witness :
    onTranslationChange
        ⟨fun q => decide (q = "a/translations.json"), fun _ => false,
          fun q => "/root/" ++ q, fun q => q⟩
        (fun _ => Except.error "boom") "other.txt"
      = { generated := none, logged := none }
    ∧ (onTranslationChange
        ⟨fun q => decide (q = "a/translations.json"), fun _ => false,
          fun q => "/root/" ++ q, fun q => q⟩
        (fun _ => Except.error "boom") "a/translations.json").generated
      = some "/root/a/translations.json"
    ∧ (onTranslationChange
        ⟨fun q => decide (q = "a/translations.json"), fun _ => false,
          fun q => "/root/" ++ q, fun q => q⟩
        (fun _ => Except.error "boom") "a/translations.json").logged
      = some "a/translations.json" := by
  have h1 := claim8_change_isolation
    ⟨fun q => decide (q = "a/translations.json"), fun _ => false,
      fun q => "/root/" ++ q, fun q => q⟩
    (fun _ => Except.error "boom") "other.txt"
  have h2 := claim8_change_isolation
    ⟨fun q => decide (q = "a/translations.json"), fun _ => false,
      fun q => "/root/" ++ q, fun q => q⟩
    (fun _ => Except.error "boom") "a/translations.json"
  refine ⟨h1.1 (by decide) rfl, ?_, ?_⟩
  · exact h2.2.1 "/root/a/translations.json"
      (by simp [targetFileFor])
  · exact h2.2.2.1 "/root/a/translations.json" "boom"
      (by simp [targetFileFor]) rfl

/-- Claim C9: a directory-added event for a path that does not match the
translation-directory shape does nothing; for a matching directory with no
authoring-locale file at the conventional path, exactly one file holding
the empty structured object is created there; if the file exists, no write
is performed — in particular, repeating the event after the handler ran
performs no write. -/
theorem claim9_new_directory (d : DirDeps) (fs : String → Option String)
    (p : String) :
    (d.isTranslationDirectory p = false → onNewDirectory d fs p = (fs, []))
    ∧ (d.isTranslationDirectory p = true →
        fs (d.joinPath p d.devTranslationFileName) = none →
        (onNewDirectory d fs p).2
            = [(d.joinPath p d.devTranslationFileName,
                emptyTranslationFileContent)]
          ∧ (onNewDirectory d fs p).1 (d.joinPath p d.devTranslationFileName)
            = some emptyTranslationFileContent)
    ∧ (∀ c, fs (d.joinPath p d.devTranslationFileName) = some c →
        (onNewDirectory d fs p).2 = [])
    ∧ (onNewDirectory d (onNewDirectory d fs p).1 p).2 = [] := by
  refine ⟨?_, ?_, ?_, ?_⟩
  · intro h
    simp [onNewDirectory, h]
  · intro h hf
    simp [onNewDirectory, h, hf, fsUpdate]
  · intro c hf
    by_cases h : d.isTranslationDirectory p <;> simp [onNewDirectory, h, hf]
  · by_cases h : d.isTranslationDirectory p
    · cases hf : fs (d.joinPath p d.devTranslationFileName) with
      | none => simp [onNewDirectory, h, hf, fsUpdate]
      | some c => simp [onNewDirectory, h, hf]
    · simp [onNewDirectory, h]

/-- Witness for C9 at concrete inputs: a non-matching directory is ignored;
a matching directory with no file gets exactly one `\x7b\x7d` write at the
joined conventional path; repeating the event performs no write. -/
theorem claim9_witness :
    (onNewDirectory ⟨fun q => decide (q = "lang"), "translations.json",
        fun a b => a ++ "/" ++ b⟩ (fun _ => none) "other").2 = []
    ∧ (onNewDirectory ⟨fun q => decide (q = "lang"), "translations.json",
        fun a b => a ++ "/" ++ b⟩ (fun _ => none) "lang").2
      = [("lang/translations.json", emptyTranslationFileContent)]
    ∧ (onNewDirectory ⟨fun q => decide (q = "lang"), "translations.json",
        fun a b => a ++ "/" ++ b⟩
        (onNewDirectory ⟨fun q => decide (q = "lang"), "translations.json",
          fun a b => a ++ "/" ++ b⟩ (fun _ => none) "lang").1 "lang").2
      = [] := by
  have h1 := claim9_new_directory
    ⟨fun q => decide (q = "lang"), "translations.json",
      fun a b => a ++ "/" ++ b⟩ (fun _ => none) "other"
  have h2 := claim9_new_directory
    ⟨fun q => decide (q = "lang"), "translations.json",
      fun a b => a ++ "/" ++ b⟩ (fun _ => none) "lang"
  refine ⟨?_, ?_, h2.2.2.2⟩
  · rw [h1.1 (by decide)]
  · rw [(h2.2.1 (by decide) rfl).1]
    decide

theorem keyFold_all_none (locales : List (Option LocaleMessage)) (acc : KeyAcc)
    (h : ∀ o ∈ locales, o = none) : locales.foldl keyStep acc = acc := by
  induction locales with
  | nil => rfl
  | cons o rest ih =>
      have ho := h o (List.mem_cons_self _ _)
      subst ho
      rw [List.foldl_cons]
      exact ih (fun o2 hm => h o2 (List.mem_cons_of_mem _ hm))

/-- Claim C10: a key present in the unit's key set but translated in no
locale still gets an accessor entry: empty parameter map, has-markup false,
empty message union, accessor type exactly `() => ` followed by nothing —
the key is neither skipped nor an error. -/
theorem claim10_untranslated_key (keys : List String) (k : String)
    (locales : String → List (Option LocaleMessage))
    (hk : k ∈ keys) (hnone : ∀ o ∈ locales k, o = none) :
    (keyInfo (locales k)).1.params = []
    ∧ (keyInfo (locales k)).1.hasTags = false
    ∧ (keyInfo (locales k)).1.message = ""
    ∧ translationFunctionString (keyInfo (locales k)).1 = "() => "
    ∧ (encodeBackslash k, "() => ") ∈ translationEntriesFor keys locales := by
  have hfold := keyFold_all_none (locales k)
    { params := [], messages := [], hasTags := false, imports := [] } hnone
  have hinfo : (keyInfo (locales k)).1
      = { params := [], message := "", returnType := "string",
          hasTags := false } := by
    simp only [keyInfo]
    rw [hfold]
    rfl
  have htfs : translationFunctionString (keyInfo (locales k)).1 = "() => " := by
    rw [hinfo]
    rfl
  refine ⟨by rw [hinfo], by rw [hinfo], by rw [hinfo], htfs, ?_⟩
  exact List.mem_map.2 ⟨k, hk, by rw [htfs]⟩

/-- Witness for C10: key `ghost` exists in the key set but no locale
translates it. -/
theorem claim10_witness :
    translationFunctionString
        (keyInfo ((fun _ : String => [none, none]) "ghost")).1 = "() => "
    ∧ (encodeBackslash "ghost", "() => ")
        ∈ translationEntriesFor ["ghost"] (fun _ => [none, none]) := by
  have h := claim10_untranslated_key ["ghost"] "ghost" (fun _ => [none, none])
    (by simp)
    (by
      intro o ho
      rcases List.mem_cons.1 ho with h1 | h1
      · exact h1
      · rcases List.mem_cons.1 h1 with h2 | h2
        · exact h2
        · simp at h2)
  exact ⟨h.2.2.2.1, h.2.2.2.2⟩

end Vocab
